import Mathlib

/-!
Verification of the CrackPi cluster coordination and job distribution
engine against its natural-language specification.

Pure functions present in the repository (`calculateProgress`, `retry`,
`updateClientCounts`, ...) are embedded directly from the JavaScript
source.  The core engine components (progress aggregator, membership
table, leader election, job partitioner, scheduler) are exercised by the
UI code in the repository but their own code is not part of the sources
available here; those are modelled from the specification, as marked on
each definition.
-/

namespace CrackPi

/-! ## Progress percentage helper

Embedded from `src/mobile_app/src/utils/helpers.js` (`calculateProgress`):
`if (total === 0) return 0; return Math.min((current / total) * 100, 100);`
JavaScript numbers are modelled as rationals. -/

def calculateProgress (current total : ℚ) : ℚ :=
  if total = 0 then 0 else min (current / total * 100) 100

/-! ## Client counters

Embedded from `src/static/js/clients.js` (`ClientManager.updateClientCounts`):
the fetched client list is folded with
`if (status === 'connected') connected++; else if (status === 'working')
working++; else disconnected++;` and afterwards
`counts.idle = counts.connected - counts.working;`.
The subtraction is on JavaScript numbers, so `idle` may be negative and is
modelled as an integer. -/

structure ClientCounts where
  connected : Nat
  working : Nat
  disconnected : Nat
  idle : Int
deriving DecidableEq, Repr

def tallyClients : List String → Nat × Nat × Nat
  | [] => (0, 0, 0)
  | s :: rest =>
    let t := tallyClients rest
    if s = "connected" then (t.1 + 1, t.2.1, t.2.2)
    else if s = "working" then (t.1, t.2.1 + 1, t.2.2)
    else (t.1, t.2.1, t.2.2 + 1)

def updateClientCounts (clients : List String) : ClientCounts :=
  let t := tallyClients clients
  { connected := t.1
    working := t.2.1
    disconnected := t.2.2
    idle := (t.1 : Int) - (t.2.1 : Int) }

/-! ## Retry helper

Embedded from `src/mobile_app/src/utils/helpers.js` (`retry`):
`for (attempt = 1; attempt <= maxAttempts; attempt++) { try { return await
fn(); } catch (error) { if (attempt === maxAttempts) throw error; await
delay; } }`.
The fallible operation is modelled as a function from the attempt number
to that attempt's outcome.  When the loop body never runs
(`maxAttempts = 0`) the JavaScript function returns `undefined`, modelled
as `none`. -/

def retryGo (fn : Nat → Except E A) : Nat → Nat → Option (Except E A)
  | _, 0 => none
  | attempt, remaining + 1 =>
    match fn attempt with
    | .ok a => some (.ok a)
    | .error e =>
      if remaining = 0 then some (.error e)
      else retryGo fn (attempt + 1) remaining

def retry (fn : Nat → Except E A) (maxAttempts : Nat) : Option (Except E A) :=
  retryGo fn 1 maxAttempts

/-- Number of times the loop of `retry` invokes the operation. -/
def retryCalls (fn : Nat → Except E A) : Nat → Nat → Nat
  | _, 0 => 0
  | attempt, remaining + 1 =>
    match fn attempt with
    | .ok _ => 1
    | .error _ =>
      if remaining = 0 then 1
      else 1 + retryCalls fn (attempt + 1) remaining

/-! ## Progress aggregator

Modelled from the spec: the Progress Aggregator's
`reportProgress(nodeId, unitId, fractionDone, newlyCrackedCredentials)`
(§4.5) is not among the available sources (the dashboard and job screens
only consume its `job_progress_update` / `password_cracked` events).
Per §4.5 a report is applied only if `fractionDone` is monotonically
non-decreasing for that unit, and the cracked-credential list is a set
union, never double-counted. -/

/-- Aggregator state: recorded fraction per work unit (0 before any
report) and the set of cracked credentials. -/
structure AggregatorState where
  fractions : Nat → ℚ
  cracked : Finset Nat

/-- Empty aggregator state. -/
def aggInit : AggregatorState :=
  { fractions := fun _ => 0, cracked := ∅ }

/-- Modelled from the spec: apply one progress report (§4.5); a report
whose fraction regresses below the unit's recorded fraction is rejected,
otherwise the fraction is recorded and the credentials are set-unioned. -/
def reportProgress (st : AggregatorState) (unitId : Nat) (fractionDone : ℚ)
    (creds : List Nat) : AggregatorState :=
  if fractionDone < st.fractions unitId then st
  else
    { fractions := fun u => if u = unitId then fractionDone else st.fractions u
      cracked := st.cracked ∪ creds.toFinset }

/-! ## Leader election term

Modelled from the spec: the Leader Election component (§4.2, §3
ClusterTerm) is not among the available sources (the mobile
`ClusterScreen.forceElection` only calls `ApiService.forceElection()` and
displays the returned term).  Per §3 the term advances only on election
and is never decremented; per §4.2 a forced election increments the term
immediately and must not be honored if it would decrease the term. -/

structure ElectionState where
  term : Nat
  leader : Option Nat
deriving DecidableEq, Repr

/-- Modelled from the spec: an election outcome proposing term `t` with
winner `ldr` is adopted only when it advances the current term (§3:
"advances only on election, never decremented"; §4.2: a request that
would decrease the term is not honored). -/
def adoptElection (st : ElectionState) (t : Nat) (ldr : Option Nat) : ElectionState :=
  if st.term < t then { term := t, leader := ldr } else st

/-- Modelled from the spec: a forced election proposes the successor of
the current term (§4.2 "increments term immediately"). -/
def forceElection (st : ElectionState) (winner : Option Nat) : ElectionState :=
  adoptElection st (st.term + 1) winner

/-! ## Membership table

Modelled from the spec: the Membership Table (§4.1) is not among the
available sources (the web `ClientManager` only renders per-client status
events).  `recordHeartbeat` upserts the node's last-seen timestamp;
`healthOf` is computed purely from `now - lastSeen` against two
thresholds (suspect-timeout < dead-timeout). -/

inductive Health where
  | Healthy
  | Suspect
  | Dead
deriving DecidableEq, Repr

/-- The table maps a node id to its last-seen timestamp, `none` for a
node never heard from. -/
def MembershipTable := Nat → Option Nat

/-- Modelled from the spec: `recordHeartbeat(nodeId, metrics, timestamp)`
upserts a Node entry and resets its last-seen clock (§4.1). -/
def recordHeartbeat (tbl : MembershipTable) (nodeId t : Nat) : MembershipTable :=
  fun m => if m = nodeId then some t else tbl m

/-- Health from elapsed time against the two thresholds (§4.1). -/
def classifyElapsed (suspectT deadT elapsed : Nat) : Health :=
  if elapsed < suspectT then .Healthy
  else if elapsed < deadT then .Suspect
  else .Dead

/-- Modelled from the spec: `healthOf(nodeId)` computed purely from
`now - lastSeen` (§4.1); `none` for an unknown node. -/
def healthOf (tbl : MembershipTable) (suspectT deadT now nodeId : Nat) : Option Health :=
  (tbl nodeId).map (fun t => classifyElapsed suspectT deadT (now - t))

/-! ## Job partitioner

Modelled from the spec: `partition(job, nodeCount)` (§4.3) is not among
the available sources.  The job's total candidate space is split into
`nodeCount`-ish contiguous, non-overlapping, exhaustive sub-ranges,
adjusting the count when `nodeCount` is zero or the space is smaller
than `nodeCount` — never zero units for a non-empty space.  A unit is a
`(start, weight)` pair of the sub-range. -/

/-- Number of units produced for a space of `total` and `nodeCount`
requested nodes: `nodeCount` clamped to the space, and at least one. -/
def unitCount (total nodeCount : Nat) : Nat :=
  max 1 (min nodeCount total)

/-- Weight (candidate-space size) of the `i`-th unit: the space is split
evenly, the remainder spread over the first units. -/
def unitWeight (total k i : Nat) : Nat :=
  total / k + (if i < total % k then 1 else 0)

/-- Start of the `i`-th unit's sub-range. -/
def unitStart (total k i : Nat) : Nat :=
  i * (total / k) + min i (total % k)

/-- Modelled from the spec: `partition(job, nodeCount)` (§4.3), returning
the list of `(start, weight)` sub-ranges. -/
def partition (total nodeCount : Nat) : List (Nat × Nat) :=
  (List.range (unitCount total nodeCount)).map
    (fun i => (unitStart total (unitCount total nodeCount) i,
               unitWeight total (unitCount total nodeCount) i))

/-! ## Scheduler

Modelled from the spec: the Scheduler (§4.4) is not among the available
sources.  `onNodeLost(nodeId)` returns every work unit held by that node
to `Unassigned` (clearing the assignment, per §9 the unit itself is never
deleted), and removes the node from the healthy list.  `tick()` assigns
every `Unassigned` work unit to some Healthy node, falling back to
round-robin over the healthy list (§4.4; §8 requires that one tick
assigns an orphaned unit whenever at least one Healthy node exists). -/

inductive UnitState where
  | Unassigned
  | Assigned
  | InProgress
  | Done
  | Failed
deriving DecidableEq, Repr

structure WorkUnit where
  id : Nat
  assignedNode : Option Nat
  state : UnitState
deriving DecidableEq, Repr

structure SchedState where
  units : List WorkUnit
  healthy : List Nat
deriving DecidableEq, Repr

/-- Release a unit if held by node `n`: back to `Unassigned` with the
assignment cleared (§4.4, §9 arena-style: only the assignment field
changes). -/
def releaseUnit (n : Nat) (u : WorkUnit) : WorkUnit :=
  if u.assignedNode = some n then
    { u with state := .Unassigned, assignedNode := none }
  else u

/-- Modelled from the spec: `onNodeLost(nodeId)` (§4.4): any work unit
held by that node transitions back to `Unassigned`; the dead node leaves
the healthy list. -/
def onNodeLost (st : SchedState) (n : Nat) : SchedState :=
  { units := st.units.map (releaseUnit n)
    healthy := st.healthy.filter (fun m => m ≠ n) }

/-- Assign one unit to the `i`-th healthy node in round-robin order. -/
def assignUnit (healthy : List Nat) (i : Nat) (u : WorkUnit) : WorkUnit :=
  { u with state := .Assigned, assignedNode := healthy[i % healthy.length]? }

/-- Walk the unit list, assigning every `Unassigned` unit to the next
healthy node in round-robin order. -/
def assignLoop (healthy : List Nat) : List WorkUnit → Nat → List WorkUnit
  | [], _ => []
  | u :: us, i =>
    if u.state = .Unassigned then assignUnit healthy i u :: assignLoop healthy us (i + 1)
    else u :: assignLoop healthy us i

/-- Modelled from the spec: `tick()` (§4.4): assigns every `Unassigned`
work unit to some Healthy node (round-robin fallback); with no healthy
node scheduling pauses and nothing is assigned. -/
def tick (st : SchedState) : SchedState :=
  match st.healthy with
  | [] => st
  | _ :: _ => { st with units := assignLoop st.healthy st.units 0 }

/-! ## Job-level progress and completion

Modelled from the spec: job-level progress is the capacity-weighted mean
of the units' fractions (§4.5), with the percentage computed by the
repository's `calculateProgress` helper
(`src/mobile_app/src/utils/helpers.js`) applied to the weighted totals;
a job is Completed only when every constituent work unit is Done (§4.5). -/

structure JobUnit where
  weight : Nat
  fraction : ℚ
  state : UnitState
deriving DecidableEq, Repr

/-- Total candidate space of the job: sum of the units' weights. -/
def totalWeight (us : List JobUnit) : ℚ :=
  (us.map (fun u => (u.weight : ℚ))).sum

/-- Candidates already covered: weight-scaled sum of the fractions. -/
def weightedDone (us : List JobUnit) : ℚ :=
  (us.map (fun u => (u.weight : ℚ) * u.fraction)).sum

/-- Modelled from the spec: job-level progress percentage (§4.5),
computed with the repository's progress helper on the weighted totals. -/
def jobProgressPercent (us : List JobUnit) : ℚ :=
  calculateProgress (weightedDone us) (totalWeight us)

/-- Modelled from the spec: a Job transitions to Completed only when
every constituent work unit is Done (§4.5). -/
def jobCompleted (us : List JobUnit) : Bool :=
  us.all (fun u => u.state == .Done)

/-! # Theorems -/

/-! ### Helper lemmas -/

theorem AggregatorState.ext' {a b : AggregatorState}
    (hf : a.fractions = b.fractions) (hc : a.cracked = b.cracked) : a = b := by
  cases a; cases b; simp_all

theorem tallyClients_eq (clients : List String) :
    tallyClients clients =
      (clients.countP (fun s => s == "connected"),
       clients.countP (fun s => s == "working"),
       clients.countP (fun s => !(s == "connected") && !(s == "working"))) := by
  induction clients with
  | nil => simp [tallyClients]
  | cons s rest ih =>
    simp only [tallyClients, ih, List.countP_cons]
    by_cases h1 : s = "connected"
    · subst h1; simp
    · by_cases h2 : s = "working"
      · subst h2; simp
      · simp [h1, h2]

theorem tallyClients_sum (clients : List String) :
    clients.countP (fun s => s == "connected") +
      clients.countP (fun s => s == "working") +
      clients.countP (fun s => !(s == "connected") && !(s == "working")) =
      clients.length := by
  induction clients with
  | nil => simp
  | cons s rest ih =>
    simp only [List.countP_cons, List.length_cons]
    by_cases h1 : s = "connected"
    · subst h1; simp; omega
    · by_cases h2 : s = "working"
      · subst h2; simp; omega
      · simp [h1, h2]; omega

/-! ### C9 and C10: UI helper functions -/

/-- C9: `calculateProgress(current, total)` is total and clamped above:
with `total = 0` it returns 0 (the division branch is guarded), with
`total > 0` it returns `min((current / total) * 100, 100)`, the result
never exceeds 100, and it is not clamped below: a negative `current`
with positive `total` yields a negative result. -/
theorem calculateProgress_total_clamped (current total : ℚ) :
    (total = 0 → calculateProgress current total = 0) ∧
    (0 < total → calculateProgress current total = min (current / total * 100) 100) ∧
    calculateProgress current total ≤ 100 ∧
    (0 < total → current < 0 → calculateProgress current total < 0) := by
  refine ⟨fun h => by simp [calculateProgress, h],
          fun h => by rw [calculateProgress, if_neg (ne_of_gt h)], ?_, ?_⟩
  · rw [calculateProgress]
    split
    · norm_num
    · exact min_le_right _ _
  · intro ht hc
    rw [calculateProgress, if_neg (ne_of_gt ht)]
    have hd : current / total < 0 := div_neg_of_neg_of_pos hc ht
    have : current / total * 100 < 0 := by nlinarith
    calc min (current / total * 100) 100 ≤ current / total * 100 := min_le_left _ _
      _ < 0 := this

/-- Witness for C9 at `current = -5, total = 10` and `current = 7, total = 0`. -/
theorem calculateProgress_total_clamped_witness :
    calculateProgress (-5) 10 = min ((-5 : ℚ) / 10 * 100) 100 ∧
    calculateProgress (-5 : ℚ) 10 < 0 ∧
    calculateProgress (7 : ℚ) 0 = 0 :=
  ⟨(calculateProgress_total_clamped (-5) 10).2.1 (by norm_num),
   (calculateProgress_total_clamped (-5) 10).2.2.2 (by norm_num) (by norm_num),
   (calculateProgress_total_clamped 7 0).1 rfl⟩

/-- C10: `updateClientCounts` partitions the client list: `connected`
counts exactly the clients with status "connected", `working` exactly
those with status "working", `disconnected` all others, the three sum to
the list length, and the displayed `idle` equals `connected - working`,
negative exactly when working clients outnumber connected ones. -/
theorem updateClientCounts_partition (clients : List String) :
    (updateClientCounts clients).connected = clients.countP (fun s => s == "connected") ∧
    (updateClientCounts clients).working = clients.countP (fun s => s == "working") ∧
    (updateClientCounts clients).disconnected =
      clients.countP (fun s => !(s == "connected") && !(s == "working")) ∧
    (updateClientCounts clients).connected + (updateClientCounts clients).working +
      (updateClientCounts clients).disconnected = clients.length ∧
    (updateClientCounts clients).idle =
      ((updateClientCounts clients).connected : Int) -
        ((updateClientCounts clients).working : Int) ∧
    ((updateClientCounts clients).idle < 0 ↔
      (updateClientCounts clients).connected < (updateClientCounts clients).working) := by
  have h := tallyClients_eq clients
  have hs := tallyClients_sum clients
  refine ⟨?_, ?_, ?_, ?_, ?_, ?_⟩ <;> simp only [updateClientCounts, h]
  · exact hs
  · omega

/-! ### C3: cluster term -/

/-- C3: the cluster term is monotonically non-decreasing (never
decremented by any election outcome), an outcome that would not advance
the term is not honored, and a forced election while the cluster is
healthy increments the term by exactly 1. -/
theorem clusterTerm_monotone (st : ElectionState) (t : Nat) (ldr w : Option Nat)
    (h : t ≤ st.term) :
    st.term ≤ (adoptElection st t ldr).term ∧
    adoptElection st t ldr = st ∧
    (forceElection st w).term = st.term + 1 ∧
    (∀ t' ldr', st.term ≤ (adoptElection st t' ldr').term) := by
  refine ⟨?_, ?_, ?_, ?_⟩
  · rw [adoptElection]; split
    next hlt => exact Nat.le_of_lt hlt
    next => exact le_refl _
  · rw [adoptElection, if_neg (by omega)]
  · rw [forceElection, adoptElection, if_pos (by omega)]
  · intro t' ldr'
    rw [adoptElection]; split
    next hlt => exact Nat.le_of_lt hlt
    next => exact le_refl _

/-- Witness for C3: at term 5, a stale outcome proposing term 3 is not
honored, and a forced election yields term 6. -/
theorem clusterTerm_monotone_witness :
    adoptElection ⟨5, some 1⟩ 3 none = ⟨5, some 1⟩ ∧
    (forceElection ⟨5, some 1⟩ (some 2)).term = 6 :=
  ⟨(clusterTerm_monotone ⟨5, some 1⟩ 3 none (some 2) (by decide)).2.1,
   (clusterTerm_monotone ⟨5, some 1⟩ 3 none (some 2) (by decide)).2.2.1⟩

/-! ### C7: membership health frame property -/

/-- C7: recording a heartbeat for node `n` leaves `healthOf m` unchanged
for every other node `m`, and a node's health is a pure function of the
elapsed time since that node's own last heartbeat. -/
theorem healthOf_frame (tbl : MembershipTable) (n t suspectT deadT now m : Nat)
    (hmn : m ≠ n) :
    healthOf (recordHeartbeat tbl n t) suspectT deadT now m =
      healthOf tbl suspectT deadT now m ∧
    (∀ tbl' now' t₁ t₂, tbl m = some t₁ → tbl' m = some t₂ → now - t₁ = now' - t₂ →
      healthOf tbl suspectT deadT now m = healthOf tbl' suspectT deadT now' m) := by
  constructor
  · rw [healthOf, healthOf, recordHeartbeat, if_neg hmn]
  · intro tbl' now' t₁ t₂ h1 h2 h3
    simp [healthOf, h1, h2, h3]

/-- Witness for C7: heartbeating node 1 does not change node 0's health. -/
theorem healthOf_frame_witness :
    healthOf (recordHeartbeat (fun x => if x = 0 then some 10 else none) 1 99) 5 10 12 0 =
      healthOf (fun x => if x = 0 then some 10 else none) 5 10 12 0 :=
  (healthOf_frame (fun x => if x = 0 then some 10 else none) 1 99 5 10 12 0
    (by decide)).1

/-! ### C8: retry helper -/

theorem retryCalls_le (fn : Nat → Except E A) :
    ∀ remaining attempt, retryCalls fn attempt remaining ≤ remaining := by
  intro remaining
  induction remaining with
  | zero => intro a; simp [retryCalls]
  | succ r ih =>
    intro a
    cases h : fn a with
    | ok v => simp [retryCalls, h]
    | error e =>
      by_cases hr : r = 0
      · simp [retryCalls, h, hr]
      · have := ih (a + 1)
        simp only [retryCalls, h, if_neg hr]
        omega

theorem retryGo_ok (fn : Nat → Except E A) :
    ∀ remaining attempt a, retryGo fn attempt remaining = some (.ok a) →
      ∃ k, attempt ≤ k ∧ k < attempt + remaining ∧ fn k = .ok a ∧
        ∀ j, attempt ≤ j → j < k → ∃ e, fn j = .error e := by
  intro remaining
  induction remaining with
  | zero => intro att a h; simp [retryGo] at h
  | succ r ih =>
    intro att a h
    cases hf : fn att with
    | ok v =>
      simp only [retryGo, hf] at h
      obtain rfl : v = a := by simpa using h
      exact ⟨att, le_refl _, by omega, hf, fun j hj1 hj2 => by omega⟩
    | error e =>
      simp only [retryGo, hf] at h
      by_cases hr : r = 0
      · rw [if_pos hr] at h; simp at h
      · rw [if_neg hr] at h
        obtain ⟨k, hk1, hk2, hk3, hk4⟩ := ih (att + 1) a h
        refine ⟨k, by omega, by omega, hk3, ?_⟩
        intro j hj1 hj2
        rcases Nat.eq_or_lt_of_le hj1 with heq | hlt
        · exact ⟨e, heq ▸ hf⟩
        · exact hk4 j hlt hj2

theorem retryGo_error (fn : Nat → Except E A) :
    ∀ remaining attempt e, retryGo fn attempt remaining = some (.error e) →
      1 ≤ remaining ∧ fn (attempt + remaining - 1) = .error e := by
  intro remaining
  induction remaining with
  | zero => intro att e h; simp [retryGo] at h
  | succ r ih =>
    intro att e h
    cases hf : fn att with
    | ok v => simp only [retryGo, hf] at h; simp at h
    | error e' =>
      simp only [retryGo, hf] at h
      by_cases hr : r = 0
      · rw [if_pos hr] at h
        obtain rfl : e' = e := by simpa using h
        subst hr
        exact ⟨by omega, by simpa using hf⟩
      · rw [if_neg hr] at h
        obtain ⟨h1, h2⟩ := ih (att + 1) e h
        refine ⟨by omega, ?_⟩
        have : att + 1 + r - 1 = att + (r + 1) - 1 := by omega
        rw [this] at h2
        exact h2

/-- C8: the retry helper invokes the operation at most `maxAttempts`
times, returns the first successful result (every earlier attempt having
failed), and propagates an error only when the final attempt also
fails. -/
theorem retry_spec (fn : Nat → Except E A) (maxAttempts : Nat) :
    retryCalls fn 1 maxAttempts ≤ maxAttempts ∧
    (∀ a, retry fn maxAttempts = some (.ok a) →
      ∃ k, 1 ≤ k ∧ k ≤ maxAttempts ∧ fn k = .ok a ∧
        ∀ j, 1 ≤ j → j < k → ∃ e, fn j = .error e) ∧
    (∀ e, retry fn maxAttempts = some (.error e) →
      1 ≤ maxAttempts ∧ fn maxAttempts = .error e) := by
  refine ⟨retryCalls_le fn maxAttempts 1, ?_, ?_⟩
  · intro a h
    obtain ⟨k, hk1, hk2, hk3, hk4⟩ := retryGo_ok fn maxAttempts 1 a h
    exact ⟨k, hk1, by omega, hk3, hk4⟩
  · intro e h
    obtain ⟨h1, h2⟩ := retryGo_error fn maxAttempts 1 e h
    refine ⟨h1, ?_⟩
    have : 1 + maxAttempts - 1 = maxAttempts := by omega
    rwa [this] at h2

/-- Witness for C8: an operation failing on the first attempt and
succeeding on the second, retried with `maxAttempts = 3`. -/
theorem retry_spec_witness :
    retryCalls (fun k => if k ≤ 1 then Except.error "boom" else Except.ok k) 1 3 ≤ 3 ∧
    (∃ k, 1 ≤ k ∧ k ≤ 3 ∧
      (fun k => if k ≤ 1 then Except.error "boom" else Except.ok k) k = .ok 2 ∧
      ∀ j, 1 ≤ j → j < k →
        ∃ e, (fun k => if k ≤ 1 then Except.error "boom" else Except.ok k) j = .error e) :=
  ⟨(retry_spec (fun k => if k ≤ 1 then Except.error "boom" else Except.ok k) 3).1,
   (retry_spec (fun k => if k ≤ 1 then Except.error "boom" else Except.ok k) 3).2.1 2
     (by rfl)⟩

/-! ### C1 and C2: progress aggregator -/

/-- C1: progress application is monotonically non-decreasing per unit: a
report with a lower `fractionDone` than the unit's recorded fraction
leaves the recorded fraction unchanged, and no report ever decreases a
unit's recorded fraction. -/
theorem reportProgress_monotone (st : AggregatorState) (u : Nat) (f : ℚ)
    (creds : List Nat) (h : f < st.fractions u) :
    (reportProgress st u f creds).fractions u = st.fractions u ∧
    reportProgress st u f creds = st ∧
    (∀ g : ℚ, ∀ creds' : List Nat,
      st.fractions u ≤ (reportProgress st u g creds').fractions u) := by
  refine ⟨?_, ?_, ?_⟩
  · rw [reportProgress, if_pos h]
  · rw [reportProgress, if_pos h]
  · intro g creds'
    rw [reportProgress]
    by_cases hg : g < st.fractions u
    · rw [if_pos hg]
    · rw [if_neg hg]
      simp only [if_pos rfl]
      exact le_of_not_lt hg

/-- Witness for C1: feeding the empty aggregator `(unit 1, 0.4)` then
`(unit 1, 0.3)` leaves the recorded fraction at 0.4. -/
theorem reportProgress_monotone_witness :
    ((3 : ℚ) / 10 < (reportProgress aggInit 1 (2 / 5) []).fractions 1) ∧
    (reportProgress (reportProgress aggInit 1 (2 / 5) []) 1 (3 / 10) []).fractions 1 =
      (reportProgress aggInit 1 (2 / 5) []).fractions 1 ∧
    (reportProgress aggInit 1 (2 / 5) []).fractions 1 = 2 / 5 := by
  have hval : (reportProgress aggInit 1 (2 / 5) []).fractions 1 = 2 / 5 := by
    rw [reportProgress, aggInit]
    norm_num
  have h : (3 : ℚ) / 10 < (reportProgress aggInit 1 (2 / 5) []).fractions 1 := by
    rw [hval]; norm_num
  exact ⟨h, (reportProgress_monotone _ 1 (3 / 10) [] h).1, hval⟩

/-- C2: delivering the identical progress report a second time leaves the
aggregated state unchanged; in particular the cracked-credential set, and
hence its count, is not incremented twice. -/
theorem reportProgress_idempotent (st : AggregatorState) (u : Nat) (f : ℚ)
    (creds : List Nat) :
    reportProgress (reportProgress st u f creds) u f creds =
      reportProgress st u f creds ∧
    (reportProgress (reportProgress st u f creds) u f creds).cracked.card =
      (reportProgress st u f creds).cracked.card := by
  have key : reportProgress (reportProgress st u f creds) u f creds =
      reportProgress st u f creds := by
    by_cases h : f < st.fractions u
    · have hA : reportProgress st u f creds = st := by rw [reportProgress, if_pos h]
      rw [hA]
      exact hA
    · have hA : reportProgress st u f creds =
          ⟨fun v => if v = u then f else st.fractions v,
           st.cracked ∪ creds.toFinset⟩ := by
        rw [reportProgress, if_neg h]
      rw [hA, reportProgress, if_neg (by simp)]
      refine AggregatorState.ext' ?_ ?_
      · funext v
        by_cases hv : v = u <;> simp [hv]
      · simp [Finset.union_assoc]
  exact ⟨key, by rw [key]⟩

/-! ### C4: job partitioner -/

theorem sum_unitWeight (q r : Nat) :
    ∀ k, ((List.range k).map (fun i => q + if i < r then 1 else 0)).sum =
      k * q + min k r := by
  intro k
  induction k with
  | zero => simp
  | succ k ih =>
    rw [List.range_succ, List.map_append, List.sum_append]
    simp only [List.map_cons, List.map_nil, List.sum_cons, List.sum_nil, ih]
    have hmul : (k + 1) * q = k * q + q := by ring
    rw [hmul]
    by_cases hk : k < r
    · rw [if_pos hk]; omega
    · rw [if_neg hk]; omega

/-- C4: for a job with a non-empty candidate space and any node count
(including zero), `partition` produces at least one work unit, whose
boundaries are given deterministically by the unit index; the sub-ranges
start at 0, are contiguous (each unit starts where the previous one
ends), end at the total, and the unit weights sum to the job's total
candidate space. -/
theorem partition_spec (total nodeCount : Nat) (h : 0 < total) :
    (partition total nodeCount).length = unitCount total nodeCount ∧
    1 ≤ unitCount total nodeCount ∧
    (∀ i, i < unitCount total nodeCount →
      (partition total nodeCount)[i]? =
        some (unitStart total (unitCount total nodeCount) i,
              unitWeight total (unitCount total nodeCount) i)) ∧
    unitStart total (unitCount total nodeCount) 0 = 0 ∧
    (∀ i, i + 1 < unitCount total nodeCount →
      unitStart total (unitCount total nodeCount) (i + 1) =
        unitStart total (unitCount total nodeCount) i +
          unitWeight total (unitCount total nodeCount) i) ∧
    unitStart total (unitCount total nodeCount) (unitCount total nodeCount - 1) +
      unitWeight total (unitCount total nodeCount) (unitCount total nodeCount - 1) =
      total ∧
    ((partition total nodeCount).map Prod.snd).sum = total ∧
    partition total nodeCount = partition total nodeCount := by
  have hk : 1 ≤ unitCount total nodeCount := by
    rw [unitCount]; omega
  have hr : total % unitCount total nodeCount < unitCount total nodeCount :=
    Nat.mod_lt _ hk
  refine ⟨by simp [partition], hk, ?_, ?_, ?_, ?_, ?_, rfl⟩
  · intro i hi
    simp [partition, List.getElem?_map, List.getElem?_range, hi]
  · simp [unitStart]
  · intro i hi
    rw [unitStart, unitStart, unitWeight]
    by_cases hir : i < total % unitCount total nodeCount
    · rw [if_pos hir]
      have hmin1 : min (i + 1) (total % unitCount total nodeCount) = i + 1 := by omega
      have hmin2 : min i (total % unitCount total nodeCount) = i := by omega
      rw [hmin1, hmin2]; ring
    · rw [if_neg hir]
      have hmin1 : min (i + 1) (total % unitCount total nodeCount) =
          total % unitCount total nodeCount := by omega
      have hmin2 : min i (total % unitCount total nodeCount) =
          total % unitCount total nodeCount := by omega
      rw [hmin1, hmin2]; ring
  · rw [unitStart, unitWeight]
    have hle : total % unitCount total nodeCount ≤ unitCount total nodeCount - 1 := by
      omega
    have hmin : min (unitCount total nodeCount - 1) (total % unitCount total nodeCount) =
        total % unitCount total nodeCount := by omega
    rw [hmin, if_neg (by omega)]
    have hdm := Nat.div_add_mod total (unitCount total nodeCount)
    have hk1 : unitCount total nodeCount - 1 + 1 = unitCount total nodeCount := by omega
    calc (unitCount total nodeCount - 1) * (total / unitCount total nodeCount) +
          total % unitCount total nodeCount +
          (total / unitCount total nodeCount + 0)
        = (unitCount total nodeCount - 1 + 1) * (total / unitCount total nodeCount) +
            total % unitCount total nodeCount := by ring
      _ = unitCount total nodeCount * (total / unitCount total nodeCount) +
            total % unitCount total nodeCount := by rw [hk1]
      _ = total := hdm
  · rw [partition, List.map_map]
    have : (Prod.snd ∘ fun i =>
        (unitStart total (unitCount total nodeCount) i,
         unitWeight total (unitCount total nodeCount) i)) =
        fun i => total / unitCount total nodeCount +
          if i < total % unitCount total nodeCount then 1 else 0 := by
      funext i
      simp [unitWeight]
    rw [this, sum_unitWeight]
    have hmin : min (unitCount total nodeCount) (total % unitCount total nodeCount) =
        total % unitCount total nodeCount := by omega
    rw [hmin]
    exact Nat.div_add_mod total (unitCount total nodeCount)

/-- Witness for C4 at `total = 7`, `nodeCount = 3`. -/
theorem partition_spec_witness :
    (partition 7 3).length = unitCount 7 3 ∧
    ((partition 7 3).map Prod.snd).sum = 7 :=
  ⟨(partition_spec 7 3 (by decide)).1,
   (partition_spec 7 3 (by decide)).2.2.2.2.2.2.1⟩

/-! ### C6: job-level progress and completion -/

theorem weightedDone_nonneg (us : List JobUnit)
    (hf : ∀ u ∈ us, 0 ≤ u.fraction ∧ u.fraction ≤ 1) :
    0 ≤ weightedDone us := by
  induction us with
  | nil => simp [weightedDone]
  | cons u rest ih =>
    have h1 := hf u (by simp)
    have h2 : 0 ≤ weightedDone rest := ih (fun v hv => hf v (by simp [hv]))
    have h3 : (0 : ℚ) ≤ (u.weight : ℚ) * u.fraction :=
      mul_nonneg (by positivity) h1.1
    simp only [weightedDone, List.map_cons, List.sum_cons]
    have : weightedDone rest = (rest.map (fun v => (v.weight : ℚ) * v.fraction)).sum := rfl
    rw [this] at h2
    linarith

theorem weightedDone_le_totalWeight (us : List JobUnit)
    (hf : ∀ u ∈ us, 0 ≤ u.fraction ∧ u.fraction ≤ 1) :
    weightedDone us ≤ totalWeight us := by
  induction us with
  | nil => simp [weightedDone, totalWeight]
  | cons u rest ih =>
    have h1 := hf u (by simp)
    have h2 : weightedDone rest ≤ totalWeight rest :=
      ih (fun v hv => hf v (by simp [hv]))
    have h3 : (u.weight : ℚ) * u.fraction ≤ (u.weight : ℚ) :=
      mul_le_of_le_one_right (by positivity) h1.2
    simp only [weightedDone, totalWeight, List.map_cons, List.sum_cons]
    have e1 : weightedDone rest = (rest.map (fun v => (v.weight : ℚ) * v.fraction)).sum := rfl
    have e2 : totalWeight rest = (rest.map (fun v => (v.weight : ℚ))).sum := rfl
    rw [e1, e2] at h2
    linarith

/-- C6: the job-level progress percentage is the capacity-weighted mean
of the units' fractions (weight = candidate-space size of the unit, the
upper clamp never biting when fractions lie in `[0, 1]`), and the job is
Completed exactly when every constituent work unit is Done. -/
theorem jobProgress_weighted_mean (us : List JobUnit)
    (hf : ∀ u ∈ us, 0 ≤ u.fraction ∧ u.fraction ≤ 1)
    (hw : 0 < totalWeight us) :
    jobProgressPercent us = weightedDone us / totalWeight us * 100 ∧
    (jobCompleted us = true ↔ ∀ u ∈ us, u.state = .Done) := by
  constructor
  · rw [jobProgressPercent, calculateProgress, if_neg (ne_of_gt hw)]
    have hle : weightedDone us ≤ totalWeight us := weightedDone_le_totalWeight us hf
    have hdiv : weightedDone us / totalWeight us ≤ 1 := (div_le_one hw).mpr hle
    have h100 : weightedDone us / totalWeight us * 100 ≤ 100 := by nlinarith
    exact min_eq_left h100
  · simp [jobCompleted, List.all_eq_true]

/-- Witness for C6: two units of weights 100 and 50 at fractions 1/2 and
1; the weighted mean is (100·(1/2) + 50·1)/150 = 2/3, i.e. 200/3 %. -/
theorem jobProgress_weighted_mean_witness :
    jobProgressPercent [⟨100, 1 / 2, .InProgress⟩, ⟨50, 1, .Done⟩] =
      weightedDone [⟨100, 1 / 2, .InProgress⟩, ⟨50, 1, .Done⟩] /
        totalWeight [⟨100, 1 / 2, .InProgress⟩, ⟨50, 1, .Done⟩] * 100 :=
  (jobProgress_weighted_mean [⟨100, 1 / 2, .InProgress⟩, ⟨50, 1, .Done⟩]
    (by
      intro u hu
      rcases List.mem_cons.mp hu with rfl | hu
      · norm_num
      · rcases List.mem_cons.mp hu with rfl | hu
        · norm_num
        · simp at hu)
    (by norm_num [totalWeight])).1

/-! ### C5: scheduler reassignment -/

theorem releaseUnit_id (n : Nat) (u : WorkUnit) : (releaseUnit n u).id = u.id := by
  rw [releaseUnit]; split <;> rfl

theorem assignLoop_map_id (healthy : List Nat) :
    ∀ us i, (assignLoop healthy us i).map (fun w => w.id) =
      us.map (fun w => w.id) := by
  intro us
  induction us with
  | nil => intro i; rfl
  | cons v vs ih =>
    intro i
    rw [assignLoop]
    split
    · simp only [List.map_cons, ih]
      rfl
    · simp only [List.map_cons, ih]

theorem assignLoop_assigns (healthy : List Nat) (hne : healthy ≠ []) :
    ∀ us i, ∀ u ∈ us, u.state = .Unassigned →
      ∃ u' ∈ assignLoop healthy us i, u'.id = u.id ∧ u'.state = .Assigned ∧
        ∃ m, u'.assignedNode = some m ∧ m ∈ healthy := by
  intro us
  induction us with
  | nil => intro i u hu; simp at hu
  | cons v vs ih =>
    intro i u hu hstate
    have hlen : 0 < healthy.length := List.length_pos.mpr hne
    rcases List.mem_cons.mp hu with rfl | hmem
    · rw [assignLoop, if_pos hstate]
      have hidx : i % healthy.length < healthy.length := Nat.mod_lt _ hlen
      refine ⟨assignUnit healthy i u, List.mem_cons_self _ _, rfl, rfl, ?_⟩
      refine ⟨healthy[i % healthy.length], ?_, List.getElem_mem _⟩
      simp [assignUnit, List.getElem?_eq_getElem hidx]
    · rw [assignLoop]
      split
      · obtain ⟨u', hu', hrest⟩ := ih (i + 1) u hmem hstate
        exact ⟨u', List.mem_cons_of_mem _ hu', hrest⟩
      · obtain ⟨u', hu', hrest⟩ := ih i u hmem hstate
        exact ⟨u', List.mem_cons_of_mem _ hu', hrest⟩

/-- C5: when node `n` dies holding unit `u`, `onNodeLost` returns the
unit to `Unassigned` with its assignment cleared, no unit remains
assigned to `n`, a single subsequent `tick` assigns the unit to a
different Healthy node when one exists, no unit is ever dropped (the
lists of unit ids are preserved), and a unit is held by at most one
node at a time. -/
theorem scheduler_reassignment (st : SchedState) (n : Nat) (u : WorkUnit)
    (hu : u ∈ st.units) (hn : u.assignedNode = some n)
    (hh : (onNodeLost st n).healthy ≠ []) :
    (∃ u' ∈ (onNodeLost st n).units,
      u'.id = u.id ∧ u'.state = .Unassigned ∧ u'.assignedNode = none) ∧
    ((onNodeLost st n).units.map (fun w => w.id) = st.units.map (fun w => w.id)) ∧
    (∀ w ∈ (onNodeLost st n).units, w.assignedNode ≠ some n) ∧
    (∃ u' ∈ (tick (onNodeLost st n)).units,
      u'.id = u.id ∧ u'.state = .Assigned ∧
      ∃ m, u'.assignedNode = some m ∧ m ∈ (onNodeLost st n).healthy ∧ m ≠ n) ∧
    ((tick (onNodeLost st n)).units.map (fun w => w.id) =
      st.units.map (fun w => w.id)) ∧
    (∀ w : WorkUnit, ∀ m₁ m₂ : Nat,
      w.assignedNode = some m₁ → w.assignedNode = some m₂ → m₁ = m₂) := by
  have hrel : releaseUnit n u = { u with state := .Unassigned, assignedNode := none } := by
    rw [releaseUnit, if_pos hn]
  have hmap_id : (onNodeLost st n).units.map (fun w => w.id) =
      st.units.map (fun w => w.id) := by
    rw [onNodeLost]
    simp only [List.map_map]
    apply List.map_congr_left
    intro w _
    exact releaseUnit_id n w
  have hmem_filter : ∀ m, m ∈ (onNodeLost st n).healthy → m ≠ n := by
    intro m hm
    rw [onNodeLost] at hm
    simp only [List.mem_filter, decide_eq_true_eq] at hm
    exact hm.2
  refine ⟨?_, hmap_id, ?_, ?_, ?_, ?_⟩
  · refine ⟨releaseUnit n u, List.mem_map_of_mem _ hu, releaseUnit_id n u, ?_, ?_⟩ <;>
      rw [hrel]
  · intro w hw
    rw [onNodeLost] at hw
    obtain ⟨v, _, rfl⟩ := List.mem_map.mp hw
    rw [releaseUnit]
    split
    · simp
    next hne => exact hne
  · have hrel_mem : releaseUnit n u ∈ (onNodeLost st n).units :=
      List.mem_map_of_mem _ hu
    have hrel_state : (releaseUnit n u).state = .Unassigned := by rw [hrel]
    obtain ⟨x, xs, hcase⟩ := List.exists_cons_of_ne_nil hh
    have htick : tick (onNodeLost st n) =
        { onNodeLost st n with
          units := assignLoop ((onNodeLost st n).healthy)
            ((onNodeLost st n).units) 0 } := by
      simp only [tick, hcase]
    obtain ⟨u', hu', hid, hstate, m, hnode, hmhealthy⟩ :=
      assignLoop_assigns ((onNodeLost st n).healthy) hh
        ((onNodeLost st n).units) 0 (releaseUnit n u) hrel_mem hrel_state
    refine ⟨u', ?_, ?_, hstate, m, hnode, hmhealthy, hmem_filter m hmhealthy⟩
    · rw [htick]; exact hu'
    · rw [hid, releaseUnit_id]
  · obtain ⟨x, xs, hcase⟩ := List.exists_cons_of_ne_nil hh
    have htick : tick (onNodeLost st n) =
        { onNodeLost st n with
          units := assignLoop ((onNodeLost st n).healthy)
            ((onNodeLost st n).units) 0 } := by
      simp only [tick, hcase]
    rw [htick]
    calc (assignLoop ((onNodeLost st n).healthy)
            ((onNodeLost st n).units) 0).map (fun w => w.id)
        = (onNodeLost st n).units.map (fun w => w.id) :=
          assignLoop_map_id _ _ _
      _ = st.units.map (fun w => w.id) := hmap_id
  · intro w m₁ m₂ h1 h2
    rw [h1] at h2
    exact Option.some.inj h2

/-- Witness for C5: one unit held by node 5, healthy nodes `[5, 7]`;
after node 5 is lost a single tick hands the unit to node 7. -/
theorem scheduler_reassignment_witness :
    ((tick (onNodeLost ⟨[⟨0, some 5, UnitState.InProgress⟩], [5, 7]⟩ 5)).units.map
        (fun w => w.id) =
      ([⟨0, some 5, UnitState.InProgress⟩] : List WorkUnit).map (fun w => w.id)) ∧
    (∃ u' ∈ (tick (onNodeLost ⟨[⟨0, some 5, UnitState.InProgress⟩], [5, 7]⟩ 5)).units,
      u'.id = 0 ∧ u'.state = UnitState.Assigned ∧
      ∃ m, u'.assignedNode = some m ∧
        m ∈ (onNodeLost ⟨[⟨0, some 5, UnitState.InProgress⟩], [5, 7]⟩ 5).healthy ∧
        m ≠ 5) :=
  ⟨(scheduler_reassignment ⟨[⟨0, some 5, UnitState.InProgress⟩], [5, 7]⟩ 5
      ⟨0, some 5, UnitState.InProgress⟩ (by decide) (by decide)
      (by decide)).2.2.2.2.1,
   (scheduler_reassignment ⟨[⟨0, some 5, UnitState.InProgress⟩], [5, 7]⟩ 5
      ⟨0, some 5, UnitState.InProgress⟩ (by decide) (by decide)
      (by decide)).2.2.2.1⟩

end CrackPi
